import Mathlib

/-!
Verification of the schema-validation engine specified by this repository
together with the repository's own benchmark-harness code.

The repository's scripts are benchmark drivers: they build validation schemas
and feed them to external validation libraries.  The validation engine itself
(the library code behind `new Validator(schema).validate(data)` and
`new AsyncValidator(schema).validateAsync(data)`) is not vendored in the
repository, so the engine definitions below are modelled from the
specification document, section by section.  The harness code that *is* in the
repository (the `validateWith` dispatch wrapper, the async validation
wrappers, and the mock `asyncServices.validateCreditCard` Luhn check) is
embedded directly from the source files.
-/

/-- Modelled from the spec: the JavaScript-like values the missing engine
validates (section 3 speaks of scalars, objects with named fields, arrays,
and undefined/missing values). -/
inductive Value where
  | vUndefined
  | vNull
  | vBool (b : Bool)
  | vNum (n : Int)
  | vStr (s : String)
  | vArr (elems : List Value)
  | vObj (fields : List (String × Value))

/-- Modelled from the spec: one step of a FailureDescriptor path, an
"ordered sequence of string|int" (section 3). -/
inductive PathSeg where
  | pfield (name : String)
  | pindex (i : Nat)
deriving DecidableEq

/-- Modelled from the spec: a FailureDescriptor
`(ruleName, attemptedValue, path, message)` (section 3). -/
structure Failure where
  ruleName : String
  attemptedValue : Value
  path : List PathSeg
  message : String

/-- Modelled from the spec: the result of one rule check.  A rule signals a
validation failure via its return value; an unexpected runtime fault inside a
check is an EngineError, kept distinct from a validation failure
(sections 4.1 and 7). -/
inductive Outcome where
  | pass
  | fail (msg : String)
  | fault (err : String)

/-- Scalar constants usable as the fixed option set of an elementOf rule. -/
inductive Scalar where
  | sStr (s : String)
  | sNum (n : Int)
  | sBool (b : Bool)
deriving DecidableEq

/-- Modelled from the spec: the built-in rule families of section 4.1
(presence, numeric bounds, string length bounds, membership), plus a
constructor for an arbitrary injected check - covering cross-field rules and
the injected async service checks of section 6.  The check receives the value
and the enclosing sibling object (section 9). -/
inductive Rule where
  | required
  | minNumber (bound : Int)
  | maxNumber (bound : Int)
  | stringMinLen (bound : Nat)
  | stringMaxLen (bound : Nat)
  | elementOf (options : List Scalar)
  | custom (name : String) (check : Value → Value → Outcome)

/-- Modelled from the spec: applying one rule to a value with its sibling
context.  Built-in rules are pure and never fault; `required` fires exactly
on undefined/missing values, so an empty string counts as present
(sections 4.1, 4.2 and 9). -/
def applyRule (r : Rule) (v ctx : Value) : Outcome :=
  match r with
  | .required => match v with
    | .vUndefined => .fail "This field is required."
    | _ => .pass
  | .minNumber b => match v with
    | .vNum n => if n < b then .fail "Number is below the minimum." else .pass
    | _ => .pass
  | .maxNumber b => match v with
    | .vNum n => if n > b then .fail "Number is above the maximum." else .pass
    | _ => .pass
  | .stringMinLen b => match v with
    | .vStr s => if s.length < b then .fail "String is too short." else .pass
    | _ => .pass
  | .stringMaxLen b => match v with
    | .vStr s => if s.length > b then .fail "String is too long." else .pass
    | _ => .pass
  | .elementOf opts =>
    let ok : Bool := match v with
      | .vStr s => opts.contains (.sStr s)
      | .vNum n => opts.contains (.sNum n)
      | .vBool b => opts.contains (.sBool b)
      | _ => false
    if ok then .pass else .fail "Value is not one of the allowed options."
  | .custom _ check => check v ctx

/-- Name of a rule, recorded in the FailureDescriptor it produces. -/
def ruleName : Rule → String
  | .required => "required"
  | .minNumber _ => "minNumber"
  | .maxNumber _ => "maxNumber"
  | .stringMinLen _ => "stringMinLen"
  | .stringMaxLen _ => "stringMaxLen"
  | .elementOf _ => "elementOf"
  | .custom n _ => n

/-- Build the FailureDescriptor for a failed rule check. -/
def mkFailure (name : String) (v : Value) (path : List PathSeg) (msg : String) : Failure :=
  ⟨name, v, path, msg⟩

/-- Modelled from the spec: the single type-mismatch FailureDescriptor an
Object or Array node emits for a value of the wrong shape (section 4.2). -/
def typeMismatch (expected : String) (v : Value) (path : List PathSeg) : Failure :=
  ⟨"typeMismatch", v, path, "Expected " ++ expected⟩

/-- Field access on an object value; a missing key reads as undefined. -/
def lookupField (kvs : List (String × Value)) (name : String) : Value :=
  match kvs.lookup name with
  | some v => v
  | none => .vUndefined

mutual
/-- Modelled from the spec: a SchemaNode, the tagged union of section 3 -
a Leaf with an ordered rule list, an Object of named child schemas, or an
Array with optional element schema and whole-array rules. -/
inductive Schema where
  | leaf (rules : List Rule)
  | obj (fields : Fields)
  | arr (arrayRules : List Rule) (elementRule : Option Schema)

/-- Modelled from the spec: the declared-order field list of an Object
schema node (section 3). -/
inductive Fields where
  | fnil
  | fcons (name : String) (s : Schema) (rest : Fields)
end

/-- Modelled from the spec: the synchronous Leaf evaluation of section 4.2 -
run every rule in declared order, append every produced FailureDescriptor
(failures never short-circuit later rules); an unexpected fault becomes an
EngineError carried in the `Except` error component. -/
def runRules : List Rule → Value → Value → List PathSeg → Except String (List Failure)
  | [], _, _, _ => .ok []
  | r :: rest, v, ctx, path =>
    match applyRule r v ctx with
    | .pass => runRules rest v ctx path
    | .fail msg =>
      match runRules rest v ctx path with
      | .error e => .error e
      | .ok t => .ok (mkFailure (ruleName r) v path msg :: t)
    | .fault e => .error e

/-- Concatenate two evaluation results; an EngineError on either side aborts
the whole validation call (fail-closed, section 4.3). -/
def exAppend : Except String (List Failure) → Except String (List Failure) → Except String (List Failure)
  | .error e, _ => .error e
  | .ok _, .error e => .error e
  | .ok a, .ok b => .ok (a ++ b)

/-- A leaf runner is the strategy used to evaluate one Leaf rule list; the
synchronous evaluator uses `runRules` and the asynchronous evaluator a
completion-order-driven variant proved equal to it. -/
abbrev LeafRunner := List Rule → Value → Value → List PathSeg → Except String (List Failure)

mutual
/-- Modelled from the spec: the evaluator walk of section 4.2, parameterised
by the leaf strategy.  It also returns the schema tree it used, rebuilt from
the parts the walk consumed, so that the frame property "no validation call
mutates the tree" is the statement that this returned tree equals the input
tree. -/
def walkS (rl : LeafRunner) : Schema → Value → Value → List PathSeg → Schema × Except String (List Failure)
  | .leaf rules, v, ctx, path => (.leaf rules, rl rules v ctx path)
  | .obj fs, v, _, path =>
    match v with
    | .vObj kvs =>
      let r := walkF rl fs kvs (.vObj kvs) path
      (.obj r.1, r.2)
    | _ => (.obj fs, .ok [typeMismatch "object" v path])
  | .arr arrayRules elemRule, v, ctx, path =>
    match v with
    | .vArr es =>
      match elemRule with
      | some s =>
        let w := rl arrayRules (.vArr es) ctx path
        let r := walkE rl s es ctx path 0
        (.arr arrayRules (some r.1), exAppend w r.2)
      | none => (.arr arrayRules none, rl arrayRules (.vArr es) ctx path)
    | _ => (.arr arrayRules elemRule, .ok [typeMismatch "array" v path])

/-- Modelled from the spec: Object fields are validated in declared order,
each child at `path + [field]`, results concatenated (section 4.2). -/
def walkF (rl : LeafRunner) : Fields → List (String × Value) → Value → List PathSeg → Fields × Except String (List Failure)
  | .fnil, _, _, _ => (.fnil, .ok [])
  | .fcons name s rest, kvs, parent, path =>
    let r₁ := walkS rl s (lookupField kvs name) parent (path ++ [.pfield name])
    let r₂ := walkF rl rest kvs parent path
    (.fcons name r₁.1 r₂.1, exAppend r₁.2 r₂.2)

/-- Modelled from the spec: every array element is validated against the
element schema at `path + [index]`, results concatenated in index order
(section 4.2). -/
def walkE (rl : LeafRunner) : Schema → List Value → Value → List PathSeg → Nat → Schema × Except String (List Failure)
  | s, [], _, _, _ => (s, .ok [])
  | s, v :: vs, ctx, path, i =>
    let r₁ := walkS rl s v ctx (path ++ [.pindex i])
    let r₂ := walkE rl s vs ctx path (i + 1)
    (r₁.1, exAppend r₁.2 r₂.2)
end

/-- Modelled from the spec: `{ isValid, errors }`, the ValidationResult of
section 3. -/
structure ValidationResult where
  isValid : Bool
  errors : List Failure

/-- Modelled from the spec: the Result Aggregator of section 4.4 - `isValid`
is derived from emptiness of the error list, never set independently. -/
def mkResult (errors : List Failure) : ValidationResult :=
  ⟨errors.isEmpty, errors⟩

/-- One synchronous validation call, returning both the (rebuilt) schema tree
and the evaluation outcome. -/
def validateRun (s : Schema) (v : Value) : Schema × Except String (List Failure) :=
  walkS runRules s v v []

/-- Error list produced by the synchronous evaluator (section 4.2). -/
def validateE (s : Schema) (v : Value) : Except String (List Failure) :=
  (validateRun s v).2

/-- Modelled from the spec: `validate(schema, value) -> ValidationResult`
(section 6); an EngineError propagates in the error component. -/
def validate (s : Schema) (v : Value) : Except String ValidationResult :=
  (validateE s v).map mkResult

/-- The schema tree that comes out of a walk is the tree that went in: the
walk reads the tree but never changes it. -/
theorem walkS_fst (rl : LeafRunner) : ∀ (s : Schema) (v ctx : Value) (path : List PathSeg),
    (walkS rl s v ctx path).1 = s :=
  walkS.induct rl
    (fun s v ctx path => (walkS rl s v ctx path).1 = s)
    (fun s vs ctx path i => (walkE rl s vs ctx path i).1 = s)
    (fun fs kvs parent path => (walkF rl fs kvs parent path).1 = fs)
    (by intro rules v ctx path; simp [walkS])
    (by intro fs x path kvs ih; simp [walkS, ih])
    (by intro fs v x path h; cases v <;> simp [walkS] <;> exact (h _ rfl).elim)
    (by intro ar ctx path es s ih; simp [walkS, ih])
    (by intro ar ctx path es; simp [walkS])
    (by intro ar eo v ctx path h; cases v <;> simp [walkS])
    (by intro s x x₁ x₂; simp [walkE])
    (by intro s v vs ctx path i ih₁ ih₂; simp [walkE, ih₁])
    (by intro x x₁ x₂; simp [walkF])
    (by intro name s rest kvs parent path ih₁ ih₂; simp [walkF, ih₁, ih₂])

/-- Decides whether a claimed completion order is a permutation of the rule
indices `0 .. n-1`: right length, and every index delivered. -/
def isPermOfRange (π : List Nat) (n : Nat) : Bool :=
  (π.length == n) && (List.range n).all (fun i => π.contains i)

/-- A scheduler outcome that is not a permutation of the indices is not a
meaningful completion order (some check would finish twice or never), so it
is replaced by the trivial order. -/
def clampPerm (π : List Nat) (n : Nat) : List Nat :=
  if isPermOfRange π n then π else List.range n

/-- The i-th rule check of a leaf, tagged with its rule name; out-of-range
indices read as a passing no-op (never hit for real completion orders). -/
def ruleEntry (rules : List Rule) (v ctx : Value) (i : Nat) : String × Outcome :=
  match rules.get? i with
  | some r => (ruleName r, applyRule r v ctx)
  | none => ("", .pass)

/-- Modelled from the spec: turn the declaration-ordered outcomes of a leaf
into a result - append every failure, abort with an EngineError on a fault
(sections 4.2, 4.3). -/
def outcomesToResult : List (String × Outcome) → Value → List PathSeg → Except String (List Failure)
  | [], _, _ => .ok []
  | (name, o) :: rest, v, path =>
    match o with
    | .pass => outcomesToResult rest v path
    | .fail msg =>
      match outcomesToResult rest v path with
      | .error e => .error e
      | .ok t => .ok (mkFailure name v path msg :: t)
    | .fault e => .error e

/-- Modelled from the spec: the asynchronous Leaf evaluation of section 4.3.
All rule checks of the leaf run concurrently; their results arrive in the
completion order `π`, tagged with their declared index; the evaluator then
restores index-based ordering before building the result, so failures are
reported in declared rule order, not completion order. -/
def runRulesA (π : List Nat) (rules : List Rule) (v ctx : Value) (path : List PathSeg) : Except String (List Failure) :=
  let arrivals := π.map (fun i => (i, ruleEntry rules v ctx i))
  let ordered := (List.range rules.length).map (fun i => ((arrivals.lookup i).getD ("", .pass)))
  outcomesToResult ordered v path

/-- Modelled from the spec: a scheduler assigns each leaf (identified by its
path) the completion order of its concurrently running checks
(sections 4.3 and 5). -/
def Sched : Type := List PathSeg → List Nat

/-- The asynchronous leaf strategy under a given scheduler. -/
def asyncLeafRun (sched : Sched) : LeafRunner :=
  fun rules v ctx path => runRulesA (clampPerm (sched path) rules.length) rules v ctx path

/-- One asynchronous validation call under a given completion-order
scheduler, returning both the (rebuilt) schema tree and the outcome. -/
def asyncRun (sched : Sched) (s : Schema) (v : Value) : Schema × Except String (List Failure) :=
  walkS (asyncLeafRun sched) s v v []

/-- Error list produced by the asynchronous evaluator (section 4.3). -/
def validateAsyncE (sched : Sched) (s : Schema) (v : Value) : Except String (List Failure) :=
  (asyncRun sched s v).2

/-- Modelled from the spec: `validateAsync(schema, value)` (section 6),
parameterised by the completion-order scheduler of the concurrent checks. -/
def validateAsync (sched : Sched) (s : Schema) (v : Value) : Except String ValidationResult :=
  (validateAsyncE sched s v).map mkResult

/-- Looking up an index in an arrival list recovers the computation tagged
with that index, for any arrival order containing the index. -/
theorem lookup_map_self {α : Type} (f : Nat → α) :
    ∀ (π : List Nat) (i : Nat), i ∈ π →
      (π.map (fun j => (j, f j))).lookup i = some (f i) := by
  intro π
  induction π with
  | nil => intro i hi; simp at hi
  | cons j rest ih =>
    intro i hi
    by_cases h : i = j
    · subst h; simp [List.lookup]
    · have hr : i ∈ rest := by
        rcases List.mem_cons.mp hi with h' | h'
        · exact absurd h' h
        · exact h'
      have hb : (i == j) = false := by simpa using h
      simpa [List.lookup, hb] using ih i hr

/-- Every index below `n` is delivered by a clamped completion order. -/
theorem clampPerm_mem (π : List Nat) (n : Nat) (i : Nat) (hi : i < n) :
    i ∈ clampPerm π n := by
  unfold clampPerm
  split
  · rename_i h
    unfold isPermOfRange at h
    simp only [Bool.and_eq_true, List.all_eq_true, beq_iff_eq] at h
    have := h.2 i (List.mem_range.mpr hi)
    simpa using this
  · exact List.mem_range.mpr hi

/-- Reading each declared index through `ruleEntry` reproduces the rules in
declared order. -/
theorem range_map_ruleEntry (v ctx : Value) :
    ∀ (rules : List Rule),
      (List.range rules.length).map (fun i => ruleEntry rules v ctx i)
        = rules.map (fun r => (ruleName r, applyRule r v ctx)) := by
  intro rules
  induction rules with
  | nil => rfl
  | cons r rest ih =>
    have hshift : (List.range rest.length).map (fun i => ruleEntry (r :: rest) v ctx (i + 1))
        = (List.range rest.length).map (fun i => ruleEntry rest v ctx i) := by
      apply List.map_congr_left
      intro i _
      simp [ruleEntry]
    calc (List.range (r :: rest).length).map (fun i => ruleEntry (r :: rest) v ctx i)
        = (0 :: (List.range rest.length).map (· + 1)).map (fun i => ruleEntry (r :: rest) v ctx i) := by
          rw [List.length_cons, List.range_succ_eq_map]
      _ = ruleEntry (r :: rest) v ctx 0 :: (List.range rest.length).map (fun i => ruleEntry (r :: rest) v ctx (i + 1)) := by
          simp [List.map_map, Function.comp]
      _ = (r :: rest).map (fun r => (ruleName r, applyRule r v ctx)) := by
          rw [hshift, ih]; simp [ruleEntry]

/-- Declaration-ordered outcomes rebuild exactly the synchronous leaf
evaluation. -/
theorem outcomesToResult_map (v ctx : Value) (path : List PathSeg) :
    ∀ (rules : List Rule),
      outcomesToResult (rules.map (fun r => (ruleName r, applyRule r v ctx))) v path
        = runRules rules v ctx path := by
  intro rules
  induction rules with
  | nil => rfl
  | cons r rest ih =>
    simp only [List.map_cons, outcomesToResult, runRules, ih]

/-- Concurrent leaf evaluation is independent of the completion order: for
every delivered order it equals the synchronous declared-order evaluation. -/
theorem runRulesA_clamp (π : List Nat) (rules : List Rule) (v ctx : Value) (path : List PathSeg) :
    runRulesA (clampPerm π rules.length) rules v ctx path = runRules rules v ctx path := by
  have hlist : ∀ i ∈ List.range rules.length,
      ((((clampPerm π rules.length).map (fun j => (j, ruleEntry rules v ctx j))).lookup i).getD ("", Outcome.pass))
        = ruleEntry rules v ctx i := by
    intro i hi
    rw [lookup_map_self (ruleEntry rules v ctx) _ i (clampPerm_mem π rules.length i (List.mem_range.mp hi))]
    rfl
  simp only [runRulesA]
  rw [List.map_congr_left hlist, range_map_ruleEntry, outcomesToResult_map]

/-- Under any scheduler, the asynchronous leaf strategy is the synchronous
one. -/
theorem asyncLeafRun_eq_runRules (sched : Sched) : asyncLeafRun sched = runRules := by
  funext rules v ctx path
  exact runRulesA_clamp (sched path) rules v ctx path

/-- Whether a rule check outcome is an unexpected fault (an EngineError),
as opposed to a pass or an ordinary validation failure. -/
def Outcome.isFault : Outcome → Bool
  | .fault _ => true
  | _ => false

/-- Whether an evaluation outcome is an EngineError rejection. -/
def isError {α : Type} : Except String α → Bool
  | .error _ => true
  | .ok _ => false

/-- A concatenated result is an EngineError exactly when either side is. -/
theorem isError_exAppend (a b : Except String (List Failure)) :
    isError (exAppend a b) = (isError a || isError b) := by
  cases a <;> cases b <;> rfl

/-- Whether some rule check of a leaf faults on the given value and sibling
context. -/
def leafFaultB (rules : List Rule) (v ctx : Value) : Bool :=
  rules.any (fun r => (applyRule r v ctx).isFault)

mutual
/-- Whether the walk of a schema against a value reaches a leaf whose rule
checks include a faulting one, for a given leaf fault test. -/
def faultS (lf : List Rule → Value → Value → Bool) : Schema → Value → Value → Bool
  | .leaf rules, v, ctx => lf rules v ctx
  | .obj fs, v, _ =>
    match v with
    | .vObj kvs => faultF lf fs kvs (.vObj kvs)
    | _ => false
  | .arr arrayRules elemRule, v, ctx =>
    match v with
    | .vArr es =>
      lf arrayRules (.vArr es) ctx ||
        (match elemRule with
          | some s => faultE lf s es ctx
          | none => false)
    | _ => false

/-- Fault reachability through an Object field list. -/
def faultF (lf : List Rule → Value → Value → Bool) : Fields → List (String × Value) → Value → Bool
  | .fnil, _, _ => false
  | .fcons name s rest, kvs, parent =>
    faultS lf s (lookupField kvs name) parent || faultF lf rest kvs parent

/-- Fault reachability through the elements of an array. -/
def faultE (lf : List Rule → Value → Value → Bool) : Schema → List Value → Value → Bool
  | _, [], _ => false
  | s, v :: vs, ctx => faultS lf s v ctx || faultE lf s vs ctx
end

/-- A leaf containing a faulting check evaluates to an EngineError under the
synchronous leaf strategy. -/
theorem runRules_fault (v ctx : Value) (path : List PathSeg) :
    ∀ (rules : List Rule), leafFaultB rules v ctx = true →
      isError (runRules rules v ctx path) = true := by
  intro rules
  induction rules with
  | nil => intro h; simp [leafFaultB] at h
  | cons r rest ih =>
    intro h
    simp only [leafFaultB, List.any_cons, Bool.or_eq_true] at h
    cases hr : applyRule r v ctx with
    | pass =>
      have hrest : leafFaultB rest v ctx = true := by
        rcases h with h | h
        · rw [hr] at h; simp [Outcome.isFault] at h
        · simpa [leafFaultB] using h
      simpa [runRules, hr] using ih hrest
    | fail msg =>
      have hrest : leafFaultB rest v ctx = true := by
        rcases h with h | h
        · rw [hr] at h; simp [Outcome.isFault] at h
        · simpa [leafFaultB] using h
      have := ih hrest
      simp only [runRules, hr]
      cases hres : runRules rest v ctx path with
      | error e => simp [isError]
      | ok t => rw [hres] at this; simp [isError] at this
    | fault e => simp [runRules, hr, isError]

/-- Fault propagation through the walk: if the walk reaches a leaf whose
checks fault (by the leaf fault test) then the whole validation call is an
EngineError, for any leaf strategy coherent with the fault test. -/
theorem walk_fault (rl : LeafRunner) (lf : List Rule → Value → Value → Bool)
    (hco : ∀ rules v ctx path, lf rules v ctx = true → isError (rl rules v ctx path) = true) :
    ∀ (s : Schema) (v ctx : Value) (path : List PathSeg),
      faultS lf s v ctx = true → isError (walkS rl s v ctx path).2 = true :=
  walkS.induct rl
    (fun s v ctx path => faultS lf s v ctx = true → isError (walkS rl s v ctx path).2 = true)
    (fun s vs ctx path i => faultE lf s vs ctx = true → isError (walkE rl s vs ctx path i).2 = true)
    (fun fs kvs parent path => faultF lf fs kvs parent = true → isError (walkF rl fs kvs parent path).2 = true)
    (by intro rules v ctx path h
        simp only [faultS] at h
        simpa [walkS] using hco rules v ctx path h)
    (by intro fs x path kvs ih h
        simp only [faultS] at h
        simpa [walkS] using ih h)
    (by intro fs v x path hne h
        cases v <;> simp [faultS] at h
        exact (hne _ rfl).elim)
    (by intro ar ctx path es s ih h
        simp only [faultS, Bool.or_eq_true] at h
        simp only [walkS, isError_exAppend, Bool.or_eq_true]
        rcases h with h | h
        · exact Or.inl (hco ar (.vArr es) ctx path h)
        · exact Or.inr (ih h))
    (by intro ar ctx path es h
        simp only [faultS, Bool.or_eq_true] at h
        rcases h with h | h
        · simpa [walkS] using hco ar (.vArr es) ctx path h
        · simp at h)
    (by intro ar eo v ctx path hne h
        cases v <;> simp [faultS] at h)
    (by intro s x x₁ x₂ h; simp [faultE] at h)
    (by intro s v vs ctx path i ih₁ ih₂ h
        simp only [faultE, Bool.or_eq_true] at h
        simp only [walkE, isError_exAppend, Bool.or_eq_true]
        rcases h with h | h
        · exact Or.inl (ih₁ h)
        · exact Or.inr (ih₂ h))
    (by intro x x₁ x₂ h; simp [faultF] at h)
    (by intro name s rest kvs parent path ih₁ ih₂ h
        simp only [faultF, Bool.or_eq_true] at h
        simp only [walkF, isError_exAppend, Bool.or_eq_true]
        rcases h with h | h
        · exact Or.inl (ih₁ h)
        · exact Or.inr (ih₂ h))

/-- Whether the asynchronous walk of a schema against a value encounters an
unexpected fault in some concurrently running rule check. -/
def hasFault (s : Schema) (v : Value) : Bool :=
  faultS leafFaultB s v v

/-- A rule is a pure check when none of its check applications fault. -/
def RulePure (r : Rule) : Prop :=
  ∀ v ctx, (applyRule r v ctx).isFault = false

mutual
/-- All rules reachable in a schema are pure checks. -/
def SchemaPure : Schema → Prop
  | .leaf rules => ∀ r ∈ rules, RulePure r
  | .obj fs => FieldsPure fs
  | .arr arrayRules elemRule =>
    (∀ r ∈ arrayRules, RulePure r) ∧
      (match elemRule with
        | some s => SchemaPure s
        | none => True)

/-- All rules reachable in a field list are pure checks. -/
def FieldsPure : Fields → Prop
  | .fnil => True
  | .fcons _ s rest => SchemaPure s ∧ FieldsPure rest
end

/-- The built-in presence rule never faults. -/
theorem rulePure_required : RulePure .required := by
  intro v ctx; cases v <;> rfl

/-- The built-in string minimum length rule never faults. -/
theorem rulePure_stringMinLen (b : Nat) : RulePure (.stringMinLen b) := by
  intro v ctx
  cases v <;> first | rfl | (simp only [applyRule]; split <;> rfl)

/-- The built-in numeric minimum rule never faults. -/
theorem rulePure_minNumber (b : Int) : RulePure (.minNumber b) := by
  intro v ctx
  cases v <;> first | rfl | (simp only [applyRule]; split <;> rfl)

/-! ### Benchmark-harness code embedded from the repository source

`validateWith` and the async validation wrapper functions are embedded from
`src/validation-benchmark.js` and the insurance/async benchmark scripts.  The
third-party libraries they dispatch to are external dependencies, so each
library call is a parameter that may either return a value or throw. -/

/-- A JavaScript call either returns a value or throws. -/
inductive JsCall (α : Type) where
  | ret (a : α)
  | thrown (msg : String)

/-- Shape of a joi `schema.validate(data)` result: an optional error and the
validated value. -/
structure JoiResult where
  error : Option String
  value : Value

/-- Shape of a validant `validator.validate(data)` result as used by the
harness: a validity flag and a message. -/
structure VResult where
  isValid : Bool
  message : String

/-- The behaviors of the external validation libraries, as seen through the
calls the harness makes.  Each may return or throw arbitrarily. -/
structure LibBehaviors where
  zodParse : Value → JsCall Value
  joiValidate : Value → JsCall JoiResult
  validantValidate : Value → JsCall VResult
  yupValidateSync : Value → JsCall Value
  superstructAssert : Value → JsCall Unit
  fastestCompiled : Value → JsCall Bool

/-- JavaScript for-of iteration over the data; a non-array is not iterable
and throws. -/
def jsIterate (v : Value) : JsCall (List Value) :=
  match v with
  | .vArr es => .ret es
  | _ => .thrown "data is not iterable"

/-- The validant bulk branch of `validateWith`: validate each item, throwing
on the first invalid result (`if (!result.isValid) throw ...`). -/
def validantLoop (call : Value → JsCall VResult) : List Value → JsCall Unit
  | [] => .ret ()
  | item :: rest =>
    match call item with
    | .thrown e => .thrown e
    | .ret res => if res.isValid then validantLoop call rest else .thrown res.message

/-- The body of the `switch (library)` statement inside `validateWith`
(src/validation-benchmark.js lines 321-359), before the surrounding
try/catch: each branch returns the validated value or throws, and an unknown
library name throws. -/
def validateWithBody (B : LibBehaviors) (schemaIsArray : Bool) (library : String) (data : Value) : JsCall Value :=
  match library with
  | "zod" => B.zodParse data
  | "joi" =>
    match B.joiValidate data with
    | .thrown e => .thrown e
    | .ret res =>
      match res.error with
      | some e => .thrown e
      | none => .ret res.value
  | "validant" =>
    if schemaIsArray then
      match jsIterate data with
      | .thrown e => .thrown e
      | .ret items =>
        match validantLoop B.validantValidate items with
        | .thrown e => .thrown e
        | .ret _ => .ret data
    else
      match B.validantValidate data with
      | .thrown e => .thrown e
      | .ret res => if res.isValid then .ret data else .thrown res.message
  | "yup" => B.yupValidateSync data
  | "superstruct" =>
    match B.superstructAssert data with
    | .thrown e => .thrown e
    | .ret _ => .ret data
  | "fastest-validator" =>
    match B.fastestCompiled data with
    | .thrown e => .thrown e
    | .ret ok => if ok then .ret data else .thrown "Validation failed"
  | other => .thrown ("Unknown library: " ++ other)

/-- The harness dispatch wrapper `validateWith` embedded from
src/validation-benchmark.js: the whole switch runs inside `try`, and the
catch clause returns `null` (here `none`). -/
def validateWith (B : LibBehaviors) (schemaIsArray : Bool) (library : String) (data : Value) : JsCall (Option Value) :=
  match validateWithBody B schemaIsArray library data with
  | .ret v => .ret (some v)
  | .thrown _ => .ret none

/-- The async validation wrappers of the benchmark scripts
(`try { await lib.validate(data); return true } catch { return false }`),
embedded from src/insurance-claim-benchmark.js lines 754-791 and the async
benchmark script: the underlying call resolves a Boolean or rejects, and the
wrapper resolves `false` on rejection. -/
def asyncValidationFn (call : JsCall Bool) : JsCall Bool :=
  match call with
  | .ret b => .ret b
  | .thrown _ => .ret false

/-- The validant async wrapper
(`const result = await validator.validateAsync(data); return result.isValid`
inside try/catch returning false), embedded from
src/insurance-claim-benchmark.js lines 782-790. -/
def asyncValidantFn (call : JsCall VResult) : JsCall Bool :=
  match call with
  | .ret res => .ret res.isValid
  | .thrown _ => .ret false

/-! ### The mock credit-card service embedded from the repository source

`asyncServices.validateCreditCard` (the async benchmark script, lines
317-334) strips non-digits, requires exactly 16 digits, and runs a Luhn
checksum loop from the last digit to the first.  The setTimeout delay only
simulates latency; the resolved Boolean is the value of this pure
function. -/

/-- Numeric value of a digit character, as `parseInt` on one digit. -/
def charDigit (c : Char) : Nat :=
  c.toNat - '0'.toNat

/-- The digit characters of the card number, as
`cardNumber.replace(/\D/g, '')`. -/
def jsDigits (cardNumber : String) : List Char :=
  cardNumber.toList.filter Char.isDigit

/-- The Luhn summation loop of `validateCreditCard`: the JavaScript loop
runs `i` from `length-1` down to `0`, which traverses the digit values right
to left while `p = length - i` counts the 1-based position from the right;
a digit at an even position from the right is doubled, with 9 subtracted
when the double exceeds 9. -/
def luhnLoop : List Nat → Nat → Nat
  | [], _ => 0
  | d :: rest, p =>
    (if p % 2 == 0 then
      (let x := d * 2
       if x > 9 then x - 9 else x)
     else d) + luhnLoop rest (p + 1)

/-- The resolved value of `asyncServices.validateCreditCard`, embedded from
the async benchmark script: false unless the stripped card number has
exactly 16 digits and the Luhn sum is divisible by 10. -/
def validateCreditCard (cardNumber : String) : Bool :=
  let digits := jsDigits cardNumber
  if digits.length != 16 then false
  else (luhnLoop ((digits.map charDigit).reverse) 1) % 10 == 0

/-- The Luhn checksum as the claim words it: walking the digits from the
right, every second digit is doubled (9 subtracted from a double above 9)
and the transformed digits are summed. -/
def luhnAltSum : List Nat → Bool → Nat
  | [], _ => 0
  | d :: rest, dbl =>
    (if dbl then
      (let x := d * 2
       if x > 9 then x - 9 else x)
     else d) + luhnAltSum rest (!dbl)

/-- The claim-side acceptance condition for a card number: deleting all
non-digit characters leaves exactly 16 digits, and the Luhn checksum
(doubling every second digit counted from the right) is divisible by 10. -/
def creditCardOkSpec (cardNumber : String) : Prop :=
  (jsDigits cardNumber).length = 16 ∧
    luhnAltSum ((jsDigits cardNumber).map charDigit).reverse false % 10 = 0

/-- The positional parity flag alternates. -/
theorem succ_mod_two_beq (p : Nat) : (((p + 1) % 2 == 0) : Bool) = !(p % 2 == 0) := by
  rcases Nat.mod_two_eq_zero_or_one p with h | h <;> simp [Nat.add_mod, h]

/-- The source loop computes the alternating Luhn sum: position parity is
the doubling flag. -/
theorem luhnLoop_eq_altSum : ∀ (ds : List Nat) (p : Nat),
    luhnLoop ds p = luhnAltSum ds (p % 2 == 0) := by
  intro ds
  induction ds with
  | nil => intro p; rfl
  | cons d rest ih =>
    intro p
    simp only [luhnLoop, luhnAltSum, ih (p + 1), succ_mod_two_beq]

/-! ### Claim theorems -/

/-- A mapped aggregation result always derives `isValid` from emptiness of
the error list. -/
theorem map_mkResult_ok (x : Except String (List Failure)) (r : ValidationResult)
    (h : x.map mkResult = .ok r) : r.isValid = true ↔ r.errors = [] := by
  cases x with
  | error e => simp [Except.map] at h
  | ok errs =>
    simp only [Except.map, Except.ok.injEq] at h
    subst h
    simp [mkResult, List.isEmpty_iff]

/-- C1: for every schema and value, a ValidationResult returned by
`validate` (or by `validateAsync`, under any completion-order scheduler) has
`isValid = true` exactly when its error list is empty - the flag is derived
by the aggregator, never set independently. -/
theorem isValid_iff_errors_empty (s : Schema) (v : Value) (sched : Sched) (r : ValidationResult) :
    (validate s v = .ok r → (r.isValid = true ↔ r.errors = [])) ∧
    (validateAsync sched s v = .ok r → (r.isValid = true ↔ r.errors = [])) :=
  ⟨fun h => map_mkResult_ok (validateE s v) r h,
   fun h => map_mkResult_ok (validateAsyncE sched s v) r h⟩

/-- Witness for C1 at a concrete schema and value. -/
theorem isValid_iff_errors_empty_witness :
    (ValidationResult.mk true []).isValid = true ↔ (ValidationResult.mk true []).errors = [] :=
  (isValid_iff_errors_empty (.leaf [.required]) (.vStr "x") (fun _ => []) ⟨true, []⟩).1
    (by simp [validate, validateE, validateRun, walkS, runRules, applyRule, mkResult, Except.map])

/-- The failure a single rule contributes to a leaf evaluation, if any. -/
def failureOf (r : Rule) (v ctx : Value) (path : List PathSeg) : Option Failure :=
  match applyRule r v ctx with
  | .fail msg => some (mkFailure (ruleName r) v path msg)
  | _ => none

/-- A successful synchronous leaf evaluation is exactly the declared-order
collection of every rule failure. -/
theorem runRules_ok_filterMap (v ctx : Value) (path : List PathSeg) :
    ∀ (rules : List Rule) (errs : List Failure),
      runRules rules v ctx path = .ok errs →
      errs = rules.filterMap (fun r => failureOf r v ctx path) := by
  intro rules
  induction rules with
  | nil =>
    intro errs h
    simp only [runRules, Except.ok.injEq] at h
    simp [← h]
  | cons r rest ih =>
    intro errs h
    cases hr : applyRule r v ctx with
    | pass =>
      simp only [runRules, hr] at h
      simpa [List.filterMap_cons, failureOf, hr] using ih errs h
    | fail msg =>
      simp only [runRules, hr] at h
      cases hres : runRules rest v ctx path with
      | error e => rw [hres] at h; simp at h
      | ok t =>
        rw [hres] at h
        simp only [Except.ok.injEq] at h
        rw [← h]
        have hf : failureOf r v ctx path = some (mkFailure (ruleName r) v path msg) := by
          simp [failureOf, hr]
        simp only [List.filterMap_cons, hf]
        rw [← ih t hres]
    | fault e =>
      simp only [runRules, hr] at h
      simp at h

/-- C2: the synchronous evaluator runs every rule of a Leaf in declared
order and appends every produced FailureDescriptor - a successful leaf
evaluation equals the filter-map of all the rule failures over the whole
declared rule list, so no rule is skipped because an earlier rule failed. -/
theorem leaf_runs_all_rules_in_order (rules : List Rule) (v : Value) (errs : List Failure)
    (h : validateE (.leaf rules) v = .ok errs) :
    errs = rules.filterMap (fun r => failureOf r v v []) := by
  have h' : runRules rules v v [] = .ok errs := by
    simpa [validateE, validateRun, walkS] using h
  exact runRules_ok_filterMap v v [] rules errs h'

/-- Witness for C2: two rules that both fail still both report, in declared
order. -/
theorem leaf_runs_all_rules_in_order_witness :
    [mkFailure "minNumber" (.vNum 3) [] "Number is below the minimum.",
     mkFailure "maxNumber" (.vNum 3) [] "Number is above the maximum."]
      = [Rule.minNumber 5, Rule.maxNumber 2].filterMap
          (fun r => failureOf r (.vNum 3) (.vNum 3) []) :=
  leaf_runs_all_rules_in_order [.minNumber 5, .maxNumber 2] (.vNum 3) _
    (by simp +decide [validateE, validateRun, walkS, runRules, applyRule, mkFailure, ruleName])

/-- C3: a Leaf `[stringMinLen 3]` with no required rule accepts an undefined
value with zero errors, while prepending `required` produces exactly one
error for that same input; `required` fires exactly on undefined values, and
an empty string counts as present. -/
theorem optional_vs_required_semantics :
    validateE (.leaf [.stringMinLen 3]) .vUndefined = .ok []
    ∧ validateE (.leaf [.required, .stringMinLen 3]) .vUndefined
        = .ok [mkFailure "required" .vUndefined [] "This field is required."]
    ∧ (∀ v ctx, applyRule .required v ctx = .pass ↔ v ≠ .vUndefined)
    ∧ applyRule .required (.vStr "") (.vObj []) = .pass := by
  refine ⟨?_, ?_, ?_, rfl⟩
  · simp [validateE, validateRun, walkS, runRules, applyRule]
  · simp [validateE, validateRun, walkS, runRules, applyRule, mkFailure, ruleName]
  · intro v ctx
    cases v <;> simp [applyRule]

/-- Whether a value is object-shaped. -/
def isObjectShaped : Value → Bool
  | .vObj _ => true
  | _ => false

/-- Whether a value is array-shaped. -/
def isArrayShaped : Value → Bool
  | .vArr _ => true
  | _ => false

/-- C4: an Object node on a non-object-shaped value yields exactly one
type-mismatch descriptor with no descent; otherwise fields are recursed in
declared order at `path + [field]`.  An Array node on a non-array-shaped
value yields exactly one type-mismatch descriptor; otherwise the arrayRules
run against the whole array at the current path first and the element rule
is recursed into every element at `path + [index]` in index order; the
two-element example of the claim yields exactly one error at path
`[1, "v"]`. -/
theorem object_array_walk_semantics :
    (∀ fs v ctx path, isObjectShaped v = false →
        walkS runRules (.obj fs) v ctx path = (.obj fs, .ok [typeMismatch "object" v path]))
    ∧ (∀ name s rest kvs ctx path,
        (walkS runRules (.obj (.fcons name s rest)) (.vObj kvs) ctx path).2
          = exAppend (walkS runRules s (lookupField kvs name) (.vObj kvs) (path ++ [.pfield name])).2
              ((walkS runRules (.obj rest) (.vObj kvs) ctx path).2))
    ∧ (∀ ar eo v ctx path, isArrayShaped v = false →
        walkS runRules (.arr ar eo) v ctx path = (.arr ar eo, .ok [typeMismatch "array" v path]))
    ∧ (∀ ar s es ctx path,
        (walkS runRules (.arr ar (some s)) (.vArr es) ctx path).2
          = exAppend (runRules ar (.vArr es) ctx path) ((walkE runRules s es ctx path 0).2))
    ∧ (∀ s vIt vs ctx path i,
        (walkE runRules s (vIt :: vs) ctx path i).2
          = exAppend (walkS runRules s vIt ctx (path ++ [.pindex i])).2
              ((walkE runRules s vs ctx path (i + 1)).2))
    ∧ validateE (.arr [] (some (.obj (.fcons "v" (.leaf [.required]) .fnil))))
        (.vArr [.vObj [("v", .vNum 1)], .vObj []])
        = .ok [mkFailure "required" .vUndefined [.pindex 1, .pfield "v"] "This field is required."] := by
  refine ⟨?_, ?_, ?_, ?_, ?_, ?_⟩
  · intro fs v ctx path h
    cases v <;> simp_all [walkS, isObjectShaped]
  · intro name s rest kvs ctx path
    simp [walkS, walkF]
  · intro ar eo v ctx path h
    cases v <;> simp_all [walkS, isArrayShaped]
  · intro ar s es ctx path
    simp [walkS]
  · intro s vIt vs ctx path i
    simp [walkE]
  · simp [validateE, validateRun, walkS, walkF, walkE, runRules, applyRule,
      lookupField, exAppend, mkFailure, ruleName]

/-- Witness for C4 at concrete non-object and non-array values. -/
theorem object_array_walk_semantics_witness :
    walkS runRules (.obj .fnil) (.vNum 3) (.vNum 3) []
        = (.obj .fnil, .ok [typeMismatch "object" (.vNum 3) []])
    ∧ walkS runRules (.arr [] none) .vNull .vNull []
        = (.arr [] none, .ok [typeMismatch "array" .vNull []]) :=
  ⟨object_array_walk_semantics.1 .fnil (.vNum 3) (.vNum 3) [] rfl,
   object_array_walk_semantics.2.2.1 [] none .vNull .vNull [] rfl⟩

/-- C5: for pure rule checks, the asynchronous evaluator returns an error
list identical in content and order to the synchronous one, for every
completion-order scheduler - the output is declaration-ordered (fields, then
array indices, then rules within a leaf), independent of which concurrent
check completes first. -/
theorem async_matches_sync_declaration_order (sched : Sched) (s : Schema) (v : Value)
    (hpure : SchemaPure s) :
    validateAsync sched s v = validate s v ∧ validateAsyncE sched s v = validateE s v := by
  have hw : walkS (asyncLeafRun sched) s v v [] = walkS runRules s v v [] := by
    rw [asyncLeafRun_eq_runRules]
  exact ⟨by simp [validateAsync, validate, validateAsyncE, validateE, asyncRun, validateRun, hw],
         by simp [validateAsyncE, validateE, asyncRun, validateRun, hw]⟩

/-- Witness for C5: a reversed completion order still yields the synchronous
declaration-ordered result on a concrete pure schema. -/
theorem async_matches_sync_declaration_order_witness :
    SchemaPure (.leaf [.required, .minNumber 5])
    ∧ validateAsync (fun _ => [1, 0]) (.leaf [.required, .minNumber 5]) .vUndefined
        = validate (.leaf [.required, .minNumber 5]) .vUndefined := by
  have hp : SchemaPure (.leaf [.required, .minNumber 5]) := by
    simp only [SchemaPure]
    intro r hr
    simp only [List.mem_cons, List.mem_singleton] at hr
    rcases hr with h | h | h
    · rw [h]; exact rulePure_required
    · rw [h]; exact rulePure_minNumber 5
    · simp at h
  exact ⟨hp, (async_matches_sync_declaration_order (fun _ => [1, 0]) _ _ hp).1⟩

/-- C6: if the walk reaches a rule whose pending check raises an unexpected
fault, `validateAsync` rejects with an EngineError under every
completion-order scheduler: no ValidationResult is returned, so partial
results are discarded and the fault is never converted into an ordinary
failure inside an ok result. -/
theorem fault_rejects_validation (sched : Sched) (s : Schema) (v : Value)
    (h : hasFault s v = true) :
    (∃ e, validateAsync sched s v = .error e) ∧ ∀ r, validateAsync sched s v ≠ .ok r := by
  have hco : ∀ rules v₁ ctx path, leafFaultB rules v₁ ctx = true →
      isError (asyncLeafRun sched rules v₁ ctx path) = true := by
    intro rules v₁ ctx path hf
    rw [asyncLeafRun_eq_runRules]
    exact runRules_fault v₁ ctx path rules hf
  have herr := walk_fault (asyncLeafRun sched) leafFaultB hco s v v [] h
  cases hx : (walkS (asyncLeafRun sched) s v v []).2 with
  | error e =>
    refine ⟨⟨e, ?_⟩, ?_⟩
    · simp [validateAsync, validateAsyncE, asyncRun, hx, Except.map]
    · intro r hok
      simp [validateAsync, validateAsyncE, asyncRun, hx, Except.map] at hok
  | ok res =>
    rw [hx] at herr
    simp [isError] at herr

/-- Witness for C6: an injected check that faults makes the whole call
reject. -/
theorem fault_rejects_validation_witness :
    hasFault (.leaf [.custom "injectedService" (fun _ _ => .fault "service crashed")]) (.vNum 1) = true
    ∧ ∃ e, validateAsync (fun _ => [])
        (.leaf [.custom "injectedService" (fun _ _ => .fault "service crashed")]) (.vNum 1)
        = .error e := by
  have hf : hasFault (.leaf [.custom "injectedService" (fun _ _ => .fault "service crashed")]) (.vNum 1) = true := by
    simp [hasFault, faultS, leafFaultB, applyRule, Outcome.isFault]
  exact ⟨hf, (fault_rejects_validation (fun _ => []) _ _ hf).1⟩

/-- C7: validating the same value twice against the same schema yields
identical error lists - the tree returned by the first call is the input
tree, and re-running the walk on it gives the same outcome, in order and
content. -/
theorem validate_idempotent (s : Schema) (v : Value) :
    (validateRun ((validateRun s v).1) v).2 = (validateRun s v).2
    ∧ validate ((validateRun s v).1) v = validate s v := by
  have h : (validateRun s v).1 = s := walkS_fst runRules s v v []
  rw [h]
  exact ⟨rfl, rfl⟩

/-- Iterated validation calls thread the same unchanged schema tree. -/
theorem validateRun_foldl (vs : List Value) : ∀ (s : Schema),
    vs.foldl (fun s' v' => (validateRun s' v').1) s = s := by
  induction vs with
  | nil => intro s; rfl
  | cons v' rest ih =>
    intro s
    rw [List.foldl_cons]
    rw [show (validateRun s v').1 = s from walkS_fst runRules s v' v' []]
    exact ih s

/-- C8: no validation call mutates the schema tree: both the synchronous and
the asynchronous walk return the input tree unchanged, and a whole sequence
of validation calls threads the same tree through unchanged, so one
immutable tree instance can be reused across many calls. -/
theorem validate_preserves_schema (s : Schema) (v : Value) (sched : Sched) (vs : List Value) :
    (validateRun s v).1 = s
    ∧ (asyncRun sched s v).1 = s
    ∧ vs.foldl (fun s' v' => (validateRun s' v').1) s = s :=
  ⟨walkS_fst runRules s v v [], walkS_fst (asyncLeafRun sched) s v v [], validateRun_foldl vs s⟩

/-- C9: the benchmark-harness validation wrappers are total and never
propagate a fault: `validateWith` always returns (never throws) either the
validated value or null - any thrown error, including from an unknown
library name, is caught and mapped to null - and the async wrappers always
resolve a Boolean, resolving false when the underlying library throws or
rejects. -/
theorem harness_wrappers_total :
    (∀ B sia lib data, (∃ w, validateWith B sia lib data = .ret (some w))
        ∨ validateWith B sia lib data = .ret none)
    ∧ (∀ B sia lib data e, validateWith B sia lib data ≠ .thrown e)
    ∧ (∀ B sia lib data e, validateWithBody B sia lib data = .thrown e →
        validateWith B sia lib data = .ret none)
    ∧ (∀ call, ∃ b, asyncValidationFn call = .ret b)
    ∧ (∀ call e, asyncValidationFn call ≠ .thrown e)
    ∧ (∀ call e, call = .thrown e → asyncValidationFn call = .ret false)
    ∧ (∀ call, ∃ b, asyncValidantFn call = .ret b)
    ∧ (∀ call e, call = .thrown e → asyncValidantFn call = .ret false) := by
  refine ⟨?_, ?_, ?_, ?_, ?_, ?_, ?_, ?_⟩
  · intro B sia lib data
    cases h : validateWithBody B sia lib data with
    | ret w => exact Or.inl ⟨w, by simp [validateWith, h]⟩
    | thrown e => exact Or.inr (by simp [validateWith, h])
  · intro B sia lib data e h
    cases hb : validateWithBody B sia lib data <;> simp [validateWith, hb] at h
  · intro B sia lib data e h
    simp [validateWith, h]
  · intro call
    cases call with
    | ret b => exact ⟨b, rfl⟩
    | thrown e => exact ⟨false, rfl⟩
  · intro call e h
    cases call <;> simp [asyncValidationFn] at h
  · intro call e h
    simp [asyncValidationFn, h]
  · intro call
    cases call with
    | ret res => exact ⟨res.isValid, rfl⟩
    | thrown e => exact ⟨false, rfl⟩
  · intro call e h
    simp [asyncValidantFn, h]

/-- Witness for C9: a library call that throws is mapped to null, and a
rejected async call resolves false. -/
theorem harness_wrappers_total_witness :
    validateWith
        ⟨fun _ => .thrown "boom", fun _ => .thrown "boom", fun _ => .thrown "boom",
         fun _ => .thrown "boom", fun _ => .thrown "boom", fun _ => .thrown "boom"⟩
        false "zod" (.vNum 1) = .ret none
    ∧ asyncValidationFn (.thrown "boom") = .ret false :=
  ⟨harness_wrappers_total.2.2.1 _ false "zod" (.vNum 1) "boom" rfl,
   harness_wrappers_total.2.2.2.2.2.1 (.thrown "boom") "boom" rfl⟩

/-- C10: the mock credit-card service resolves true exactly when the string
obtained by deleting all non-digit characters has exactly 16 digits and
passes the Luhn checksum - doubling every second digit counted from the
right, subtracting 9 from any double above 9, and requiring the total to be
divisible by 10. -/
theorem validateCreditCard_luhn_spec (cardNumber : String) :
    validateCreditCard cardNumber = true ↔ creditCardOkSpec cardNumber := by
  unfold validateCreditCard creditCardOkSpec
  by_cases h : (jsDigits cardNumber).length = 16
  · simp only [h, bne_self_eq_false, Bool.false_eq_true, if_false,
      luhnLoop_eq_altSum, beq_iff_eq, true_and]
    rw [show (((1 : Nat) % 2 == 0) : Bool) = false from rfl]
  · have hb : ((jsDigits cardNumber).length != 16) = true := by
      simpa using h
    simp [hb, h]
